import Mathlib

/-!
# Verification of the dca audio transcoding pipe (cmd/dca/main.go)

Shallow embedding of the DCA container writer/reader, the encode-path PCM
reader, the encoder stage, and the configuration logic of `cmd/dca/main.go`,
together with theorems settling the frozen specification claims.

Modelling conventions:
- A byte stream (stdin/stdout content) is a `List Nat` of values in `[0,256)`;
  where a raw value could exceed a byte we reduce with `% 256`, matching the
  truncation the machine representation performs.
- Go's `binary.Read`/`binary.Write` with `binary.LittleEndian` on fixed-size
  data is modelled by explicit little-endian byte (de)composition; Go's
  `io.ReadFull` semantics (EOF when nothing was read, ErrUnexpectedEOF when a
  prefix was read) are both handled by the same `err == io.EOF ||
  err == io.ErrUnexpectedEOF` branches in the source, so the model only needs
  "fewer bytes remain than requested".
- A finite input stream ends either in a clean end-of-file or in a genuine
  read error from the underlying source; the boolean `ioErr` selects which.
  With `ioErr = false` the model is an ordinary finite stdin.
- Goroutine channels of the pipeline are single-producer/single-consumer FIFO
  queues, so each stage is modelled as a function on the ordered list of the
  units that cross its queues.
-/

namespace Dca

/-! ## Constants (source lines 22-38, 56, 125) -/

/-- `FormatVersion int8 = 1`. -/
def FormatVersion : Int := 1

/-- `MagicBytes string = fmt.Sprintf("DCA%d", FormatVersion)`. -/
def MagicBytes : String := "DCA" ++ toString FormatVersion

/-- The magic token as a byte list (ASCII, so code points are the UTF-8
bytes). -/
def magicByteList : List Nat := MagicBytes.data.map Char.toNat

/-- `MaxBytes = (FrameSize * Channels) * 2` (source line 125). -/
def MaxBytes (frameSize channels : Nat) : Nat := (frameSize * channels) * 2

/-! ## Little-endian serialization primitives -/

/-- The two bytes emitted by `binary.Write(wbuf, binary.LittleEndian, &opuslen)`
for `opuslen = int16(n)`: the low 16 bits of `n`, least significant byte
first (the int16 two's-complement representation stores exactly the low
16 bits). -/
def toLE16 (n : Nat) : List Nat := [n % 256, n / 256 % 256]

/-- The four bytes emitted by `binary.Write(wbuf, binary.LittleEndian, &jsonlen)`
for `jsonlen = int32(n)`: the low 32 bits of `n`, least significant byte
first. -/
def toLE32 (n : Nat) : List Nat :=
  [n % 256, n / 256 % 256, n / 65536 % 256, n / 16777216 % 256]

/-- The value `binary.Read(..., &opuslen)` with `opuslen uint16` obtains from
two consecutive stream bytes (little-endian, unsigned). -/
def le16 (b0 b1 : Nat) : Nat := b0 % 256 + 256 * (b1 % 256)

/-- Unsigned little-endian 32-bit value of four consecutive stream bytes. -/
def le32 (b0 b1 b2 b3 : Nat) : Nat :=
  b0 % 256 + 256 * (b1 % 256) + 65536 * (b2 % 256) + 16777216 * (b3 % 256)

/-- Unsigned value of the leading 16-bit little-endian field of a byte list
(0 when shorter than 2 bytes, matching that no complete field exists). -/
def le16val (bs : List Nat) : Nat := (bs.getD 0 0) % 256 + 256 * ((bs.getD 1 0) % 256)

/-! ## Container Codec, writer side: `encodeWriter` (source lines 447-501) -/

/-- The frame-record loop of `encodeWriter` (source lines 479-500): for each
frame received from `EncodeOutputChan`, write `int16(len(opus))` little-endian
then the frame bytes, until the channel closes. -/
def writeFramesLoop : List (List Nat) → List Nat
  | [] => []
  | opus :: rest => toLE16 opus.length ++ opus ++ writeFramesLoop rest

/-- Full stdout content produced by `encodeWriter` (source lines 447-501).
The magic token is written with `fmt.Print` directly to stdout; the JSON
length, the JSON bytes and all frame records go through the buffered writer
`wbuf`, flushed on exit. Since the magic precedes every buffered write,
stdout is the magic (non-raw only) followed by the buffered bytes in order. -/
def encodeWriterOutput (rawOutput : Bool) (metadataJson : List Nat)
    (frames : List (List Nat)) : List Nat :=
  (if rawOutput then [] else magicByteList ++ toLE32 metadataJson.length ++ metadataJson)
    ++ writeFramesLoop frames

/-! ## Container Codec, reader side: `decodeReader` (source lines 503-537) -/

/-- Where the `decodeReader` loop stopped: while reading the 2-byte length
header, or while reading a frame payload. -/
inductive DecodeStop where
  | headerEnd
  | payloadEnd
deriving Repr, DecidableEq

/-- Observable result of `decodeReader`: the frames sent to
`DecodeInputChan` in order, where the loop stopped, and whether the
`fmt.Println("error reading from stdin:", err)` branch executed. -/
structure DecodeResult where
  frames : List (List Nat)
  stoppedAt : DecodeStop
  errorReported : Bool
deriving Repr, DecidableEq

/-- `decodeReader` (source lines 503-537) on a finite input stream.
Each iteration reads a 2-byte little-endian unsigned length, then exactly
that many payload bytes, and sends the payload to `DecodeInputChan`.
`binary.Read` yields `io.EOF`/`io.ErrUnexpectedEOF` when the stream ends
(cleanly) before the requested bytes are available — both taken by the
silent `return` branches — and yields the underlying error when the source
ends in a genuine read failure (`ioErr = true`), taken by the
error-printing branch. A requested read of 0 bytes always succeeds. -/
def decodeReader (ioErr : Bool) : List Nat → DecodeResult
  | b0 :: b1 :: rest =>
    let len := le16 b0 b1
    if len ≤ rest.length then
      let r := decodeReader ioErr (rest.drop len)
      ⟨rest.take len :: r.frames, r.stoppedAt, r.errorReported⟩
    else
      ⟨[], .payloadEnd, ioErr⟩
  | _ => ⟨[], .headerEnd, ioErr⟩
termination_by bs => bs.length
decreasing_by simp [List.length_drop]; omega

/-! ## Spec-side container header reading (spec §4.2 / §6) -/

/-- Reading procedure stated by the spec for the non-raw container header:
read the 4-byte magic token, read a 32-bit little-endian length, read exactly
that many metadata bytes; return the metadata bytes and the remainder of the
stream. `none` when the stream has no well-formed header. This definition
follows the spec's words (it is the comparison point for the header-layout
claim), not a source function. -/
def readContainerHeader (bs : List Nat) : Option (List Nat × List Nat) :=
  match bs with
  | m0 :: m1 :: m2 :: m3 :: l0 :: l1 :: l2 :: l3 :: rest =>
    if [m0, m1, m2, m3] = magicByteList then
      if le32 l0 l1 l2 l3 ≤ rest.length then
        some (rest.take (le32 l0 l1 l2 l3), rest.drop (le32 l0 l1 l2 l3))
      else none
    else none
  | _ => none

/-! ## Encode-path reader: `encodeReader` (source lines 349-416) -/

/-- Signed 16-bit little-endian sample value of two stream bytes, as decoded
by `binary.Read(..., &InBuf)` with `InBuf []int16`. -/
def readInt16LE (b0 b1 : Nat) : Int :=
  let u := le16 b0 b1
  if u < 32768 then (u : Int) else (u : Int) - 65536

/-- Decoding of a fully-read byte buffer into consecutive little-endian
int16 samples (an incomplete trailing byte yields no sample; `binary.Read`
never exposes such a buffer because a short read errors first). -/
def decodeSamples : List Nat → List Int
  | b0 :: b1 :: rest => readInt16LE b0 b1 :: decodeSamples rest
  | _ => []

/-- Observable result of `encodeReader`: the PCM frames sent to
`EncodeInputChan` in order, and whether the
`fmt.Println("error reading from ffmpeg stdout :", err)` branch executed. -/
structure ReaderResult where
  frames : List (List Int)
  errorReported : Bool
deriving Repr, DecidableEq

/-- The read loop of `encodeReader` (source lines 373-389 for the file
branch, 397-413 for the stdin branch — both run the identical loop). Each
iteration allocates `InBuf := make([]int16, FrameSize*Channels)` (here `n =
FrameSize*Channels` samples, `2*n` bytes) and fills it completely with
`binary.Read`; a complete read sends the frame, while `io.EOF` /
`io.ErrUnexpectedEOF` (the source ends, cleanly, before `2*n` bytes are
available) returns silently and any other read error (`ioErr = true` at the
end of the stream) prints and returns. For `n = 0` the Go loop would read
zero bytes and send empty frames forever (no valid configuration); the model
covers terminating runs, and every claim about this loop assumes `0 < n`. -/
def encodeReaderRun (ioErr : Bool) (n : Nat) (input : List Nat) : ReaderResult :=
  if h : 0 < n ∧ 2 * n ≤ input.length then
    let r := encodeReaderRun ioErr n (input.drop (2 * n))
    ⟨decodeSamples (input.take (2 * n)) :: r.frames, r.errorReported⟩
  else
    ⟨[], ioErr⟩
termination_by input.length
decreasing_by simp [List.length_drop]; omega

/-! ## Encoder stage: `encoder` (source lines 420-443) -/

/-- Contract of the external Opus codec call `OpusEncoder.Encode(pcm,
FrameSize, MaxBytes)` (layeh.com/gopus, an external collaborator, spec §4.1):
a successfully encoded packet never exceeds the `maxBytes` cap argument.
Only this cap contract is assumed of the codec. -/
def EncodeRespectsCap (enc : List Int → Nat → Nat → Option (List Nat)) : Prop :=
  ∀ pcm fs mb out, enc pcm fs mb = some out → out.length ≤ mb

/-- `encoder` (source lines 420-443): for each PCM frame received from
`EncodeInputChan`, call `OpusEncoder.Encode(pcm, FrameSize, MaxBytes)`;
a codec error prints and returns, otherwise the packet is sent to
`EncodeOutputChan`. -/
def encoderStage (enc : List Int → Nat → Nat → Option (List Nat))
    (frameSize channels : Nat) : List (List Int) → List (List Nat)
  | [] => []
  | pcm :: rest =>
    match enc pcm frameSize (MaxBytes frameSize channels) with
    | none => []
    | some opus => opus :: encoderStage enc frameSize channels rest

/-! ## Configuration logic of `main` (source lines 181-195) -/

/-- The bitrate in bits/second passed to `OpusEncoder.SetBitrate` (source
lines 181-184): the kb/s flag value, replaced by 64 when outside `[1,512]`,
times 1000. -/
def configuredBitrate (bitrate : Int) : Int :=
  (if bitrate < 1 ∨ bitrate > 512 then 64 else bitrate) * 1000

/-- The gopus application profiles. -/
inductive OpusApplication where
  | Voip
  | Audio
  | RestrictedLowDelay
deriving Repr, DecidableEq

/-- The profile passed to `OpusEncoder.SetApplication` by the `switch
Application` statement (source lines 186-195). -/
def selectApplication (application : String) : OpusApplication :=
  match application with
  | "voip" => .Voip
  | "audio" => .Audio
  | "lowdelay" => .RestrictedLowDelay
  | _ => .Audio

/-! ## Stay-alive loop of `main` (source lines 339-346) -/

/-- The tail of `main` after `wg.Wait()` returns: the loop `for Wait { }`.
`mainAfterWait wait fuel = some ()` means `main` has returned within `fuel`
checks of the loop condition; `none` means it is still looping. The loop
body is empty and nothing ever writes `Wait` after flag parsing, so the
condition is constant. -/
def mainAfterWait (wait : Bool) : Nat → Option Unit
  | 0 => if wait then none else some ()
  | fuel + 1 => if wait then mainAfterWait wait fuel else some ()

/-- `main` eventually returns after the stage wait completes. -/
def mainReturnsAfterWait (wait : Bool) : Prop :=
  ∃ fuel, mainAfterWait wait fuel = some ()

end Dca

namespace Dca

/-! ## Theorems: configuration claims -/

/-- C5: the configured encoder bitrate is the input (kb/s) times 1000 for
inputs in [1,512] and 64000 bits/s (the 64 kb/s default) otherwise; in
particular 0, 513 and -5 yield 64000 while 1 and 512 pass unchanged. -/
theorem bitrate_clamping (b : Int) :
    (1 ≤ b → b ≤ 512 → configuredBitrate b = b * 1000) ∧
    (b < 1 ∨ b > 512 → configuredBitrate b = 64000) ∧
    configuredBitrate 0 = 64000 ∧ configuredBitrate 513 = 64000 ∧
    configuredBitrate (-5) = 64000 ∧
    configuredBitrate 1 = 1000 ∧ configuredBitrate 512 = 512000 := by
  refine ⟨?_, ?_, by decide, by decide, by decide, by decide, by decide⟩
  · intro h1 h2
    simp only [configuredBitrate, if_neg (by omega : ¬(b < 1 ∨ b > 512))]
  · intro h
    simp only [configuredBitrate, if_pos h]
    decide

theorem bitrate_clamping_witness : configuredBitrate 7 = 7 * 1000 :=
  (bitrate_clamping 7).1 (by decide) (by decide)

/-- C7: the encoder application profile is Voip for "voip", RestrictedLowDelay
for "lowdelay", Audio for "audio", and Audio for every other string. -/
theorem application_selection :
    selectApplication "voip" = .Voip ∧
    selectApplication "lowdelay" = .RestrictedLowDelay ∧
    selectApplication "audio" = .Audio ∧
    ∀ s : String, s ≠ "voip" → s ≠ "lowdelay" →
      selectApplication s = .Audio := by
  refine ⟨rfl, rfl, rfl, ?_⟩
  intro s h1 h2
  unfold selectApplication
  split <;> simp_all

theorem application_selection_witness : selectApplication "music" = .Audio :=
  application_selection.2.2.2 "music" (by decide) (by decide)

/-! ## Helper lemmas on the little-endian fields -/

theorem le16_low_bits (n : Nat) (h : n ≤ 65535) :
    le16 (n % 256) (n / 256 % 256) = n := by
  unfold le16; omega

theorem le32_low_bits (n : Nat) (h : n < 4294967296) :
    le32 (n % 256) (n / 256 % 256) (n / 65536 % 256) (n / 16777216 % 256) = n := by
  unfold le32; omega

theorem decodeSamples_length : ∀ bs : List Nat, (decodeSamples bs).length = bs.length / 2
  | [] => rfl
  | [_] => by simp [decodeSamples]
  | _ :: _ :: rest => by
    simp only [decodeSamples, List.length_cons, decodeSamples_length rest]
    omega

/-! ## Theorems: container codec claims -/

theorem decodeReader_writeFramesLoop :
    ∀ frames : List (List Nat), (∀ f ∈ frames, f.length ≤ 65535) →
      decodeReader false (writeFramesLoop frames) = ⟨frames, .headerEnd, false⟩ := by
  intro frames
  induction frames with
  | nil => intro _; simp [writeFramesLoop, decodeReader]
  | cons f fs ih =>
    intro h
    have hf : f.length ≤ 65535 := h f (List.mem_cons_self f fs)
    have hcons : writeFramesLoop (f :: fs)
        = f.length % 256 :: f.length / 256 % 256 :: (f ++ writeFramesLoop fs) := by
      simp [writeFramesLoop, toLE16]
    rw [hcons]
    simp only [decodeReader]
    rw [le16_low_bits f.length hf]
    rw [if_pos (by rw [List.length_append]; omega :
      f.length ≤ (f ++ writeFramesLoop fs).length)]
    rw [List.take_left, List.drop_left]
    rw [ih (fun g hg => h g (List.mem_cons_of_mem f hg))]

/-- C1: raw-mode framing round-trip. Serializing any finite sequence of
payloads (each at most 65535 bytes) with `encodeWriter` in raw mode and
feeding the byte stream to `decodeReader` reproduces exactly the same
payload sequence in order (so the frame count is preserved), parses every
frame without an error report, and terminates in the clean end at a
length-prefix read (`headerEnd`); the reader consumed the very first bytes
as a frame length, never as a magic marker. -/
theorem raw_framing_roundtrip (metadataJson : List Nat) (frames : List (List Nat))
    (h : ∀ f ∈ frames, f.length ≤ 65535) :
    decodeReader false (encodeWriterOutput true metadataJson frames)
      = ⟨frames, .headerEnd, false⟩ := by
  have hraw : encodeWriterOutput true metadataJson frames = writeFramesLoop frames := by
    simp [encodeWriterOutput]
  rw [hraw]
  exact decodeReader_writeFramesLoop frames h

theorem raw_framing_roundtrip_witness :
    decodeReader false (encodeWriterOutput true [] [[1, 2], [3]])
      = ⟨[[1, 2], [3]], .headerEnd, false⟩ :=
  raw_framing_roundtrip [] [[1, 2], [3]] (by decide)

/-- C2 counterexample: on the stream `[3, 0, 1]` (length prefix 3, only one
payload byte remaining) `decodeReader` stops mid-payload but the
error-printing branch does not execute — the claimed malformed-stream error
report does not happen; the reader returns silently exactly as it does at a
clean end. -/
theorem decode_midpayload_silent :
    decodeReader false [3, 0, 1] = ⟨[], .payloadEnd, false⟩ := by
  simp [decodeReader, le16]

/-- C2 (amended): if end-of-stream occurs while the 16-bit length prefix is
being read, `decodeReader` terminates normally with no error; if end-of-stream
occurs after a length prefix but before that many payload bytes are read, the
reader also terminates silently, discarding the partial frame, with no
malformed-stream error reported — indistinguishable from a clean end by any
error report. The error branch runs only when the underlying source fails
with a genuine read error instead of end-of-stream. -/
theorem decode_eos_handling (b0 b1 b : Nat) (rest : List Nat)
    (hshort : rest.length < le16 b0 b1) :
    decodeReader false [] = ⟨[], .headerEnd, false⟩ ∧
    decodeReader false [b] = ⟨[], .headerEnd, false⟩ ∧
    decodeReader false (b0 :: b1 :: rest) = ⟨[], .payloadEnd, false⟩ ∧
    decodeReader true (b0 :: b1 :: rest) = ⟨[], .payloadEnd, true⟩ := by
  refine ⟨by simp [decodeReader], by simp [decodeReader], ?_, ?_⟩
  · simp only [decodeReader]
    rw [if_neg (not_le.mpr hshort)]
  · simp only [decodeReader]
    rw [if_neg (not_le.mpr hshort)]

theorem decode_eos_handling_witness :
    decodeReader false [] = ⟨[], .headerEnd, false⟩ ∧
    decodeReader false [7] = ⟨[], .headerEnd, false⟩ ∧
    decodeReader false (3 :: 0 :: [1]) = ⟨[], .payloadEnd, false⟩ ∧
    decodeReader true (3 :: 0 :: [1]) = ⟨[], .payloadEnd, true⟩ :=
  decode_eos_handling 3 0 7 [1] (by decide)

/-- C3: with raw mode off, `encodeWriter` emits exactly once, before any frame
record, the 4-byte magic token (`"DCA" + version digit` = `"DCA1"`), then the
byte length of the metadata JSON as a 32-bit little-endian integer, then the
JSON bytes verbatim — the spec-side reading procedure `readContainerHeader`
recovers the JSON bytes and leaves precisely the frame records. With raw mode
on, the magic and metadata block are omitted entirely and the output is just
the length-prefixed frame sequence. -/
theorem container_header_layout (meta : List Nat) (frames : List (List Nat))
    (hlen : meta.length < 4294967296) :
    encodeWriterOutput false meta frames
      = magicByteList ++ toLE32 meta.length ++ meta ++ writeFramesLoop frames ∧
    readContainerHeader (encodeWriterOutput false meta frames)
      = some (meta, writeFramesLoop frames) ∧
    encodeWriterOutput true meta frames = writeFramesLoop frames ∧
    magicByteList = [68, 67, 65, 49] := by
  have hmagic : magicByteList = [68, 67, 65, 49] := by decide
  refine ⟨by simp [encodeWriterOutput], ?_, by simp [encodeWriterOutput], hmagic⟩
  have hform : encodeWriterOutput false meta frames
      = 68 :: 67 :: 65 :: 49 :: meta.length % 256 :: meta.length / 256 % 256 ::
        meta.length / 65536 % 256 :: meta.length / 16777216 % 256 ::
        (meta ++ writeFramesLoop frames) := by
    simp [encodeWriterOutput, hmagic, toLE32]
  rw [hform]
  simp only [readContainerHeader]
  rw [if_pos hmagic.symm]
  rw [le32_low_bits meta.length hlen]
  rw [if_pos (by rw [List.length_append]; omega :
    meta.length ≤ (meta ++ writeFramesLoop frames).length)]
  rw [List.take_left, List.drop_left]

theorem container_header_layout_witness :
    encodeWriterOutput false [123] [[5]]
      = magicByteList ++ toLE32 ([123] : List Nat).length ++ [123]
          ++ writeFramesLoop [[5]] ∧
    readContainerHeader (encodeWriterOutput false [123] [[5]])
      = some ([123], writeFramesLoop [[5]]) ∧
    encodeWriterOutput true [123] [[5]] = writeFramesLoop [[5]] ∧
    magicByteList = [68, 67, 65, 49] :=
  container_header_layout [123] [[5]] (by decide)

/-- C4: for every frame the writer receives (raw and non-raw alike), the
emitted record is the 2-byte little-endian length field immediately followed
by exactly the payload bytes, with the remaining records directly after (no
bytes in between); for payload lengths up to 65535 the unsigned value of the
emitted field equals the payload length. In either mode the frame-record
section follows the (possibly empty) header unchanged. -/
theorem frame_record_format (f : List Nat) (rest : List (List Nat))
    (raw : Bool) (meta : List Nat) (h : f.length ≤ 65535) :
    writeFramesLoop (f :: rest) = toLE16 f.length ++ f ++ writeFramesLoop rest ∧
    (toLE16 f.length).length = 2 ∧
    le16val (toLE16 f.length) = f.length ∧
    writeFramesLoop ([] : List (List Nat)) = [] ∧
    encodeWriterOutput raw meta (f :: rest)
      = encodeWriterOutput raw meta [] ++ writeFramesLoop (f :: rest) := by
  refine ⟨by simp [writeFramesLoop], by simp [toLE16], ?_, rfl, ?_⟩
  · simp only [le16val, toLE16, List.getD_cons_zero, List.getD_cons_succ]
    omega
  · cases raw <;> simp [encodeWriterOutput, writeFramesLoop]

theorem frame_record_format_witness :
    writeFramesLoop [[7, 8], [9]]
      = toLE16 ([7, 8] : List Nat).length ++ [7, 8] ++ writeFramesLoop [[9]] ∧
    (toLE16 ([7, 8] : List Nat).length).length = 2 ∧
    le16val (toLE16 ([7, 8] : List Nat).length) = ([7, 8] : List Nat).length ∧
    writeFramesLoop ([] : List (List Nat)) = [] ∧
    encodeWriterOutput false [1] [[7, 8], [9]]
      = encodeWriterOutput false [1] [] ++ writeFramesLoop [[7, 8], [9]] :=
  frame_record_format [7, 8] [[9]] false [1] (by decide)

/-! ## Theorems: encode-path reader claims -/

theorem encodeReaderRun_frames_length (ioErr : Bool) (n : Nat) (_hn : 0 < n) :
    ∀ (input : List Nat) (f : List Int),
      f ∈ (encodeReaderRun ioErr n input).frames → f.length = n := by
  intro input
  induction input using encodeReaderRun.induct ioErr n with
  | case1 input h ih =>
    intro f hf
    rw [encodeReaderRun, dif_pos h] at hf
    simp only [List.mem_cons] at hf
    rcases hf with hh | ht
    · subst hh
      rw [decodeSamples_length, List.length_take]
      omega
    · exact ih f ht
  | case2 input h =>
    intro f hf
    rw [encodeReaderRun, dif_neg h] at hf
    simp at hf

/-- C6: for every configuration with at least one sample per frame and every
input byte stream (clean-ending or error-ending), every PCM frame the
encode-path Reader places on the reader-to-transformer queue holds exactly
`frameSize × channels` 16-bit samples; no short frame is ever sent. -/
theorem reader_frame_size (ioErr : Bool) (frameSize channels : Nat)
    (input : List Nat) (f : List Int) (hn : 0 < frameSize * channels)
    (hf : f ∈ (encodeReaderRun ioErr (frameSize * channels) input).frames) :
    f.length = frameSize * channels :=
  encodeReaderRun_frames_length ioErr (frameSize * channels) hn input f hf

theorem reader_frame_size_witness : ([(0 : Int)]).length = 1 * 1 :=
  reader_frame_size false 1 1 [0, 0] [0] (by decide)
    (by simp [encodeReaderRun, decodeSamples, readInt16LE, le16])

theorem encodeReaderRun_error_free (n : Nat) (input : List Nat) :
    (encodeReaderRun false n input).errorReported = false := by
  induction input using encodeReaderRun.induct false n with
  | case1 input h ih => rw [encodeReaderRun, dif_pos h]; exact ih
  | case2 input h => rw [encodeReaderRun, dif_neg h]

theorem encodeReaderRun_append_short_tail (n : Nat) (hn : 0 < n) :
    ∀ input extra : List Nat, input.length % (2 * n) = 0 →
      extra.length < 2 * n →
      encodeReaderRun false n (input ++ extra) = encodeReaderRun false n input := by
  intro input
  induction input using encodeReaderRun.induct false n with
  | case1 input h ih =>
    intro extra hmul hex
    have hcond2 : 0 < n ∧ 2 * n ≤ (input ++ extra).length := by
      refine ⟨hn, ?_⟩
      rw [List.length_append]
      omega
    rw [encodeReaderRun, dif_pos hcond2]
    conv_rhs => rw [encodeReaderRun]
    rw [dif_pos h]
    have hdvd : 2 * n ∣ input.length := Nat.dvd_of_mod_eq_zero hmul
    have hdmod : (input.length - 2 * n) % (2 * n) = 0 :=
      Nat.mod_eq_zero_of_dvd (Nat.dvd_sub' hdvd dvd_rfl)
    rw [List.take_append_of_le_length h.2, List.drop_append_of_le_length h.2]
    rw [ih extra (by rw [List.length_drop]; exact hdmod) hex]
  | case2 input h =>
    intro extra hmul hex
    have hlt : input.length < 2 * n := by
      rcases not_and_or.mp h with h1 | h2
      · exact absurd hn h1
      · omega
    rw [Nat.mod_eq_of_lt hlt] at hmul
    have hinput : input = [] := List.eq_nil_of_length_eq_zero hmul
    subst hinput
    rw [List.nil_append]
    rw [encodeReaderRun, dif_neg (by rintro ⟨-, hc⟩; omega :
      ¬(0 < n ∧ 2 * n ≤ extra.length))]
    rw [encodeReaderRun, dif_neg h]

/-- C9: on the encode path, an input whose byte length is not a multiple of
`2 × frameSize × channels` has its trailing partial frame silently discarded:
the Reader's result on the full input equals its result on the input with the
partial tail removed (so the partial samples are never sent to the
Transformer), and the short final read is treated exactly like a clean
end-of-stream — the error branch never executes. -/
theorem trailing_partial_frame_discarded (frameSize channels : Nat)
    (input extra : List Nat) (hn : 0 < frameSize * channels)
    (hmul : input.length % (2 * (frameSize * channels)) = 0)
    (hextra : extra.length < 2 * (frameSize * channels)) :
    encodeReaderRun false (frameSize * channels) (input ++ extra)
      = encodeReaderRun false (frameSize * channels) input ∧
    (encodeReaderRun false (frameSize * channels) (input ++ extra)).errorReported
      = false :=
  ⟨encodeReaderRun_append_short_tail (frameSize * channels) hn input extra hmul hextra,
   encodeReaderRun_error_free (frameSize * channels) (input ++ extra)⟩

theorem trailing_partial_frame_discarded_witness :
    encodeReaderRun false (1 * 1) ([0, 0] ++ [5])
      = encodeReaderRun false (1 * 1) [0, 0] ∧
    (encodeReaderRun false (1 * 1) ([0, 0] ++ [5])).errorReported = false :=
  trailing_partial_frame_discarded 1 1 [0, 0] [5] (by decide) (by decide) (by decide)

/-! ## Theorems: encoder stage claim -/

theorem encoderStage_length_le (enc : List Int → Nat → Nat → Option (List Nat))
    (hcap : EncodeRespectsCap enc) (fs ch : Nat) :
    ∀ (pcms : List (List Int)) (out : List Nat),
      out ∈ encoderStage enc fs ch pcms → out.length ≤ MaxBytes fs ch := by
  intro pcms
  induction pcms with
  | nil => intro out hout; simp [encoderStage] at hout
  | cons p rest ih =>
    intro out hout
    simp only [encoderStage] at hout
    cases henc : enc p fs (MaxBytes fs ch) with
    | none => rw [henc] at hout; simp at hout
    | some opus =>
      rw [henc] at hout
      simp only [List.mem_cons] at hout
      rcases hout with hh | ht
      · exact hh ▸ hcap _ _ _ _ henc
      · exact ih out ht

/-- C10: every encoded frame the encoder stage places on the
encoder-to-writer queue has byte length at most `MaxBytes = frameSize ×
channels × 2`, because the codec is invoked with that cap; for frame size at
most 2880 and at most 2 channels this is at most 11520 bytes, so the 16-bit
frame-length field never overflows (11520 ≤ 65535). -/
theorem encoded_frame_length_bounded
    (enc : List Int → Nat → Nat → Option (List Nat)) (hcap : EncodeRespectsCap enc)
    (frameSize channels : Nat) (pcms : List (List Int)) (out : List Nat)
    (hout : out ∈ encoderStage enc frameSize channels pcms)
    (hfs : frameSize ≤ 2880) (hch : channels ≤ 2) :
    out.length ≤ MaxBytes frameSize channels ∧
    MaxBytes frameSize channels ≤ 11520 ∧ out.length ≤ 65535 := by
  have h1 := encoderStage_length_le enc hcap frameSize channels pcms out hout
  have h2 : MaxBytes frameSize channels ≤ 11520 := by
    unfold MaxBytes
    calc frameSize * channels * 2 ≤ 2880 * 2 * 2 :=
          Nat.mul_le_mul (Nat.mul_le_mul hfs hch) (le_refl 2)
      _ = 11520 := by norm_num
  exact ⟨h1, h2, le_trans h1 (le_trans h2 (by norm_num))⟩

theorem encoded_frame_length_bounded_witness :
    ([] : List Nat).length ≤ MaxBytes 960 2 ∧
    MaxBytes 960 2 ≤ 11520 ∧ ([] : List Nat).length ≤ 65535 :=
  encoded_frame_length_bounded (fun _ _ _ => some [])
    (fun _ _ _ _ h => by injection h with h2; rw [← h2]; exact Nat.zero_le _)
    960 2 [[0]] [] (by simp [encoderStage]) (by decide) (by decide)

/-- C8: with the keep-alive flag set, `main` never returns from the trailing
loop after the stage wait completes (no number of loop iterations reaches the
return); with the flag unset it returns immediately after the wait. -/
theorem stay_alive_mode :
    ¬ mainReturnsAfterWait true ∧ mainReturnsAfterWait false := by
  constructor
  · rintro ⟨fuel, h⟩
    induction fuel with
    | zero => simp [mainAfterWait] at h
    | succ n ih => simp only [mainAfterWait, if_pos rfl] at h; exact ih h
  · exact ⟨0, rfl⟩

end Dca
